import Mathlib

/-!
# Verification of the enarx-wasmldr core

A shallow embedding of the enarx-wasmldr sources, with theorems settling the
frozen claims about them.  Bytes are modelled as `Nat` (with explicit bounds
where they matter), byte streams as `List Nat`.

* `src/bundle.rs` — the Wasm "bundle" custom-section codec (`append_archive`,
  `parse`, `Builder::build`).  The external `wasmparser` crate is modelled at
  the granularity the code observes: the 8-byte module header and the outer
  section framing (`id` byte, ULEB128 size, payload); a custom section's
  payload carries a ULEB128 name length, the name bytes, and the data.  The
  external `leb128` crate's canonical encoder is modelled by `uleb`.
* `src/virtfs.rs` — the tar-backed virtual filesystem (`TarDirEntry`,
  `TarFileContents` and its `FileContents` operations).  The external `tar`
  crate is modelled by a list of well-formed entries, each carrying its
  `raw_file_position`, entry type, stored path and data bytes.  Rust
  `std::path` component normalization (`Components`, `parent`, `file_name`)
  is modelled on slash-separated segments following its documented rules.
* `src/workload.rs` — the phase of `run` from VFS population up to the WASI
  context build: deployment-config loading, per-stream stdio wiring, and the
  final context build.  The external engine pieces (serde_yaml, host `open`,
  wasi-common's string-table build) enter as parameters recording their
  outcome; the model records exactly which builder configuration calls `run`
  performs.
* `src/attestation.rs` — the decoding of the attestation pseudo-syscall's
  `(rax, rdx)` outcome.
-/

/-! ## ULEB128 (model of the `leb128` crate encoder and of Wasm varint decoding) -/

/-- Fuel-driven worker for the canonical (minimal) unsigned LEB128 encoder.
The fuel argument only serves termination; `uleb` supplies enough. -/
def ulebAux : Nat → Nat → List Nat
  | 0, n => [n % 128]
  | fuel + 1, n => if n < 128 then [n] else (n % 128 + 128) :: ulebAux fuel (n / 128)

/-- Canonical unsigned LEB128 encoding, as emitted by `leb128::write::unsigned`:
low seven bits first, continuation bit `0x80` on every byte but the last. -/
def uleb (n : Nat) : List Nat :=
  ulebAux n n

/-- Unsigned LEB128 decoder returning the decoded value and the number of
bytes consumed.  A byte below `0x80` terminates the number; `b % 128` takes
the low seven payload bits of a byte (equal to `b - 128` on a continuation
byte, since bytes are below 256). -/
def readUleb : List Nat → Option (Nat × Nat)
  | [] => none
  | b :: rest =>
    if b < 128 then some (b, 1)
    else
      match readUleb rest with
      | some (n, k) => some (b % 128 + 128 * n, k + 1)
      | none => none

theorem ulebAux_congr : ∀ f g n : Nat, n ≤ f → n ≤ g → ulebAux f n = ulebAux g n := by
  intro f
  induction f with
  | zero =>
    intro g n hf hg
    have hn : n = 0 := Nat.le_zero.mp hf
    subst hn
    cases g with
    | zero => rfl
    | succ g => simp [ulebAux]
  | succ f ih =>
    intro g n hf hg
    cases g with
    | zero =>
      have hn : n = 0 := Nat.le_zero.mp hg
      subst hn
      simp [ulebAux]
    | succ g =>
      simp only [ulebAux]
      by_cases h : n < 128
      · simp [h]
      · have hpos : 0 < n := by omega
        have hlt : n / 128 < n := Nat.div_lt_self hpos (by norm_num)
        have h1 : n / 128 ≤ f := by omega
        have h2 : n / 128 ≤ g := by omega
        simp [h, ih g (n / 128) h1 h2]

/-- Unfolding equation of the canonical encoder. -/
theorem uleb_eq (n : Nat) :
    uleb n = if n < 128 then [n] else (n % 128 + 128) :: uleb (n / 128) := by
  unfold uleb
  cases n with
  | zero => simp [ulebAux]
  | succ m =>
    simp only [ulebAux]
    by_cases h : m + 1 < 128
    · simp [h]
    · have hpos : 0 < m + 1 := Nat.succ_pos m
      have hlt : (m + 1) / 128 < m + 1 := Nat.div_lt_self hpos (by norm_num)
      have h1 : (m + 1) / 128 ≤ m := by omega
      simp [h, ulebAux_congr m ((m + 1) / 128) ((m + 1) / 128) h1 (Nat.le_refl _)]

/-- The encoder is nonempty-valued. -/
theorem uleb_ne_nil (n : Nat) : uleb n ≠ [] := by
  rw [uleb_eq]
  by_cases h : n < 128 <;> simp [h]

/-- Round trip: decoding an encoding (with any trailing bytes) recovers the
value and consumes exactly the encoding. -/
theorem readUleb_uleb (n : Nat) (ext : List Nat) :
    readUleb (uleb n ++ ext) = some (n, (uleb n).length) := by
  induction n using Nat.strong_induction_on generalizing ext with
  | _ n ih =>
    rw [uleb_eq]
    by_cases h : n < 128
    · simp [h, readUleb]
    · have hpos : 0 < n := by omega
      have hlt : n / 128 < n := Nat.div_lt_self hpos (by norm_num)
      have hge : ¬ (n % 128 + 128 < 128) := by omega
      have hmod : (n % 128 + 128) % 128 = n % 128 := by omega
      have hval : n % 128 + 128 * (n / 128) = n := by omega
      simp only [h, if_false, List.cons_append, readUleb, hge, ih (n / 128) hlt ext,
        List.length_cons, hmod, hval]

/-- The decoder consumes at least one and at most all of the bytes. -/
theorem readUleb_consumed {bs : List Nat} {n k : Nat}
    (h : readUleb bs = some (n, k)) : 1 ≤ k ∧ k ≤ bs.length := by
  induction bs generalizing n k with
  | nil => simp [readUleb] at h
  | cons b rest ih =>
    simp only [readUleb] at h
    by_cases hb : b < 128
    · simp only [hb, if_true, Option.some.injEq, Prod.mk.injEq] at h
      obtain ⟨rfl, rfl⟩ := h
      simp only [List.length_cons]
      omega
    · simp only [hb, if_false] at h
      cases hr : readUleb rest with
      | none => rw [hr] at h; exact absurd h (by simp)
      | some p =>
        obtain ⟨n', k'⟩ := p
        rw [hr] at h
        simp only [Option.some.injEq, Prod.mk.injEq] at h
        obtain ⟨-, hk⟩ := h
        have := ih hr
        simp only [List.length_cons]
        omega

/-- The decoder only looks at the bytes it consumes: replacing everything
after the consumed prefix leaves the result unchanged. -/
theorem readUleb_take {bs : List Nat} {n k : Nat}
    (h : readUleb bs = some (n, k)) :
    ∀ ext, readUleb (bs.take k ++ ext) = some (n, k) := by
  induction bs generalizing n k with
  | nil => simp [readUleb] at h
  | cons b rest ih =>
    intro ext
    simp only [readUleb] at h
    by_cases hb : b < 128
    · simp only [hb, if_true, Option.some.injEq, Prod.mk.injEq] at h
      obtain ⟨rfl, rfl⟩ := h
      simp [readUleb, hb]
    · simp only [hb, if_false] at h
      cases hr : readUleb rest with
      | none => rw [hr] at h; exact absurd h (by simp)
      | some p =>
        obtain ⟨n', k'⟩ := p
        rw [hr] at h
        simp only [Option.some.injEq, Prod.mk.injEq] at h
        obtain ⟨rfl, rfl⟩ := h
        simp only [List.take_succ_cons, List.cons_append, readUleb, hb, if_false,
          List.append_eq, ih hr ext]

/-- Corollary: appending bytes after a decodable stream does not change the
decoded value or the consumed count. -/
theorem readUleb_append {bs : List Nat} {n k : Nat}
    (h : readUleb bs = some (n, k)) (ext : List Nat) :
    readUleb (bs ++ ext) = some (n, k) := by
  have hk := (readUleb_consumed h).2
  have := readUleb_take h (bs.drop k ++ ext)
  rwa [← List.append_assoc, List.take_append_drop] at this

/-- Any `k`-byte accepted LEB128 prefix denotes a value below `128 ^ k`. -/
theorem readUleb_lt {bs : List Nat} {n k : Nat}
    (h : readUleb bs = some (n, k)) : n < 128 ^ k := by
  induction bs generalizing n k with
  | nil => simp [readUleb] at h
  | cons b rest ih =>
    simp only [readUleb] at h
    by_cases hb : b < 128
    · simp only [hb, if_true, Option.some.injEq, Prod.mk.injEq] at h
      obtain ⟨rfl, rfl⟩ := h
      simpa using hb
    · simp only [hb, if_false] at h
      cases hr : readUleb rest with
      | none => rw [hr] at h; exact absurd h (by simp)
      | some p =>
        obtain ⟨n', k'⟩ := p
        rw [hr] at h
        simp only [Option.some.injEq, Prod.mk.injEq] at h
        obtain ⟨rfl, rfl⟩ := h
        have hn' := ih hr
        have hpow : 128 ^ (k' + 1) = 128 ^ k' * 128 := by ring
        rw [hpow]
        have hb' : b % 128 < 128 := Nat.mod_lt _ (by norm_num)
        calc b % 128 + 128 * n' < 128 * (n' + 1) := by omega
        _ ≤ 128 * 128 ^ k' := Nat.mul_le_mul_left 128 hn'
        _ = 128 ^ k' * 128 := Nat.mul_comm _ _

/-- The canonical encoding of a value below `128 ^ k` is at most `k` bytes
(for positive `k`). -/
theorem uleb_length_le {n k : Nat} (hk : 1 ≤ k) (h : n < 128 ^ k) :
    (uleb n).length ≤ k := by
  induction n using Nat.strong_induction_on generalizing k with
  | _ n ih =>
    rw [uleb_eq]
    by_cases hn : n < 128
    · rw [if_pos hn]
      simpa using hk
    · have hpos : 0 < n := by omega
      have hlt : n / 128 < n := Nat.div_lt_self hpos (by norm_num)
      have hk2 : 2 ≤ k := by
        by_contra hcon
        have : k = 1 := by omega
        subst this
        simp at h
        omega
      have hdiv : n / 128 < 128 ^ (k - 1) := by
        rw [Nat.div_lt_iff_lt_mul (by norm_num : (0:Nat) < 128)]
        calc n < 128 ^ k := h
        _ = 128 ^ (k - 1) * 128 := by
              rw [← pow_succ]
              congr 1
              omega
      have := @ih (n / 128) hlt (k - 1) (by omega) hdiv
      simp only [hn, if_false, List.length_cons]
      omega

/-- Minimality (canonicality): no accepted LEB128 encoding of `n` is shorter
than the canonical one. -/
theorem uleb_minimal {bs : List Nat} {n k : Nat}
    (h : readUleb bs = some (n, k)) : (uleb n).length ≤ k :=
  uleb_length_le (readUleb_consumed h).1 (readUleb_lt h)

/-! ## Wasm outer section framing (model of the `wasmparser` events observed
by `bundle::parse`) -/

/-- The 8-byte Wasm module header: magic `\0asm` and version 1.  The
`wasmparser` `Version` payload covers exactly these bytes, and `parse`
forwards them to the default handler. -/
def wasmMagic : List Nat := [0x00, 0x61, 0x73, 0x6d, 0x01, 0x00, 0x00, 0x00]

/-- The default resources section name `.enarx.resources`, as UTF-8 bytes
(`bundle::RESOURCES_SECTION`). -/
def resourcesName : List Nat :=
  [46, 101, 110, 97, 114, 120, 46, 114, 101, 115, 111, 117, 114, 99, 101, 115]

/-- A decoded Wasm section: either a custom section (id 0) with its decoded
name and data, or any other section id with its raw payload. -/
inductive WasmSection where
  | custom (name : List Nat) (data : List Nat)
  | other (id : Nat) (payload : List Nat)
deriving DecidableEq

/-- A decoded section together with the exact input bytes it was decoded
from (the `consumed` slice that `parse` forwards for non-matching
sections). -/
structure Piece where
  sec : WasmSection
  raw : List Nat
deriving DecidableEq

/-- Interpret a section payload given its id: a custom section's payload is
a ULEB128 name length, the name bytes, and the data. -/
def mkSection (id : Nat) (payload : List Nat) : Option WasmSection :=
  if id = 0 then
    match readUleb payload with
    | some (nlen, k) =>
      if nlen + k ≤ payload.length then
        some (.custom ((payload.drop k).take nlen) (payload.drop (k + nlen)))
      else none
    | none => none
  else some (.other id payload)

/-- Decode one section from the head of the stream: the id byte, the ULEB128
content size, and the payload.  Returns the piece and the number of bytes
consumed. -/
def readSec (bs : List Nat) : Option (Piece × Nat) :=
  match bs with
  | [] => none
  | id :: rest =>
    match readUleb rest with
    | none => none
    | some (size, k) =>
      if id < 256 ∧ size + k ≤ rest.length then
        match mkSection id ((rest.drop k).take size) with
        | some sec => some (⟨sec, id :: rest.take (k + size)⟩, 1 + k + size)
        | none => none
      else none

/-- Decode the stream of sections following the module header.  The fuel
argument only serves termination; callers pass the stream length. -/
def decodeSecs : Nat → List Nat → Option (List Piece)
  | _, [] => some []
  | 0, _ :: _ => none
  | fuel + 1, b :: rest =>
    match readSec (b :: rest) with
    | none => none
    | some (p, c) =>
      match decodeSecs fuel ((b :: rest).drop c) with
      | some ps => some (p :: ps)
      | none => none

/-- Decode a whole module byte stream: the 8-byte header followed by the
section sequence. -/
def decodeModule (bs : List Nat) : Option (List Piece) :=
  if bs.take 8 = wasmMagic then decodeSecs (bs.drop 8).length (bs.drop 8) else none

/-- Whether a piece is a custom section whose name equals `secName`
(the sections `bundle::parse` delivers to `on_custom` and drops from the
default stream). -/
def Piece.matchesName (secName : List Nat) (p : Piece) : Bool :=
  match p.sec with
  | .custom nm _ => nm = secName
  | _ => false

/-- The data bytes of a custom piece (what `on_custom` receives). -/
def Piece.customData (p : Piece) : List Nat :=
  match p.sec with
  | .custom _ d => d
  | .other _ pl => pl

/-- The two observable outputs of `bundle::parse`: the payloads delivered to
`on_custom` (in order), and the concatenation of all byte slices delivered
to `on_default`. -/
structure ParseOut where
  customs : List (List Nat)
  defaults : List Nat
deriving DecidableEq

/-- Assemble `bundle::parse`'s outputs from the decoded pieces: matching
custom sections go to `on_custom` (framing dropped), everything else —
header included — is forwarded verbatim to `on_default`. -/
def mkOut (secName : List Nat) (ps : List Piece) : ParseOut :=
  { customs := (ps.filter (fun p => p.matchesName secName)).map Piece.customData
    defaults :=
      wasmMagic ++ ((ps.filter (fun p => !p.matchesName secName)).map Piece.raw).flatten }

/-- Model of `bundle::parse input secName on_custom on_default`. -/
def bundleParse (input secName : List Nat) : Option ParseOut :=
  (decodeModule input).map (mkOut secName)

/-- Model of `bundle::append_archive`: the `0x00` custom-section id, the
ULEB128 content size (tar size plus header length, where the header is the
ULEB128 name length followed by the name), the header, and the tar bytes. -/
def appendArchive (secName tar : List Nat) : List Nat :=
  0 :: (uleb (tar.length + (uleb secName.length ++ secName).length)
    ++ ((uleb secName.length ++ secName) ++ tar))

/-- Model of `Builder::build`: stream the input through `parse`, forwarding
the default stream to the output and discarding matching custom sections,
then append a fresh custom section containing the tar archive. -/
def bundleBuild (input secName tar : List Nat) : Option (List Nat) :=
  (bundleParse input secName).map fun o => o.defaults ++ appendArchive secName tar

/-- `Builder::build` with no `section` override uses `.enarx.resources`, and
the input is plain when no custom section carries that name. -/
def plainModule (bs : List Nat) : Bool :=
  match decodeModule bs with
  | some ps => ps.all fun p => !p.matchesName resourcesName
  | none => true

/-- Decode the section stream with the natural fuel (the stream length). -/
def decodeAll (bs : List Nat) : Option (List Piece) :=
  decodeSecs bs.length bs

/-- One decoded section consumes at least one and at most all bytes, and its
recorded raw slice is exactly the consumed prefix. -/
theorem readSec_spec {bs : List Nat} {p : Piece} {c : Nat}
    (h : readSec bs = some (p, c)) :
    1 ≤ c ∧ c ≤ bs.length ∧ p.raw = bs.take c := by
  match bs with
  | [] => simp [readSec] at h
  | id :: rest =>
    simp only [readSec] at h
    cases hu : readUleb rest with
    | none => rw [hu] at h; exact absurd h (by simp)
    | some q =>
      obtain ⟨size, k⟩ := q
      rw [hu] at h
      by_cases hg : id < 256 ∧ size + k ≤ rest.length
      · simp only [hg, if_true] at h
        cases hm : mkSection id ((rest.drop k).take size) with
        | none => rw [hm] at h; exact absurd h (by simp)
        | some sec =>
          rw [hm] at h
          simp only [Option.some.injEq, Prod.mk.injEq] at h
          obtain ⟨rfl, rfl⟩ := h
          refine ⟨by omega, ?_, ?_⟩
          · simp only [List.length_cons]
            omega
          · have : (1 : Nat) + k + size = (k + size) + 1 := by omega
            rw [this, List.take_succ_cons]
      · simp [hg] at h

/-- One decoded section depends only on its consumed prefix: the same piece
is decoded when any bytes follow it. -/
theorem readSec_take {bs : List Nat} {p : Piece} {c : Nat}
    (h : readSec bs = some (p, c)) (ext : List Nat) :
    readSec (bs.take c ++ ext) = some (p, c) := by
  match bs with
  | [] => simp [readSec] at h
  | id :: rest =>
    simp only [readSec] at h
    cases hu : readUleb rest with
    | none => rw [hu] at h; exact absurd h (by simp)
    | some q =>
      obtain ⟨size, k⟩ := q
      rw [hu] at h
      by_cases hg : id < 256 ∧ size + k ≤ rest.length
      · simp only [hg, if_true] at h
        cases hm : mkSection id ((rest.drop k).take size) with
        | none => rw [hm] at h; exact absurd h (by simp)
        | some sec =>
          rw [hm] at h
          simp only [Option.some.injEq, Prod.mk.injEq] at h
          obtain ⟨rfl, rfl⟩ := h
          have hksize : k + size ≤ rest.length := by omega
          have hhead : (id :: rest).take (1 + k + size) = id :: rest.take (k + size) := by
            rw [show 1 + k + size = (k + size) + 1 from by omega, List.take_succ_cons]
          rw [hhead, List.cons_append]
          have htk : rest.take (k + size) ++ ext
              = rest.take k ++ ((rest.drop k).take size ++ ext) := by
            rw [List.take_add, List.append_assoc]
          have hu' : readUleb (rest.take (k + size) ++ ext) = some (size, k) := by
            rw [htk]
            exact readUleb_take hu _
          have hlen : ((rest.drop k).take size).length = size := by
            simp only [List.length_take, List.length_drop]
            omega
          have hdk : (rest.take (k + size) ++ ext).drop k
              = (rest.drop k).take size ++ ext := by
            rw [htk, List.drop_left' (by simp only [List.length_take]; omega)]
          have hpayload : ((rest.take (k + size) ++ ext).drop k).take size
              = (rest.drop k).take size := by
            rw [hdk, List.take_left' hlen]
          have hraw : (rest.take (k + size) ++ ext).take (k + size)
              = rest.take (k + size) := by
            apply List.take_left'
            simp only [List.length_take]
            omega
          have hcond : size + k ≤ (rest.take (k + size) ++ ext).length := by
            simp only [List.length_append, List.length_take]
            omega
          simp only [readSec, hu']
          rw [if_pos ⟨hg.1, hcond⟩, hpayload, hm, hraw]
      · simp [hg] at h

/-- Fuel congruence for `decodeSecs`: any fuel at least the stream length
gives the same result. -/
theorem decodeSecs_congr : ∀ f g : Nat, ∀ bs : List Nat,
    bs.length ≤ f → bs.length ≤ g → decodeSecs f bs = decodeSecs g bs := by
  intro f
  induction f with
  | zero =>
    intro g bs hf hg
    have : bs = [] := List.length_eq_zero.mp (Nat.le_zero.mp hf)
    subst this
    cases g <;> rfl
  | succ f ih =>
    intro g bs hf hg
    cases bs with
    | nil => cases g <;> rfl
    | cons b rest =>
      cases g with
      | zero => simp at hg
      | succ g =>
        simp only [decodeSecs]
        cases hr : readSec (b :: rest) with
        | none => rfl
        | some q =>
          obtain ⟨p, c⟩ := q
          have hc := readSec_spec hr
          have hlen : ((b :: rest).drop c).length ≤ f := by
            simp only [List.length_drop, List.length_cons] at *
            omega
          have hlen2 : ((b :: rest).drop c).length ≤ g := by
            simp only [List.length_drop, List.length_cons] at *
            omega
          dsimp only
          rw [ih g ((b :: rest).drop c) hlen hlen2]

/-- Unfolding of `decodeAll` on a nonempty stream. -/
theorem decodeAll_cons (b : Nat) (rest : List Nat) :
    decodeAll (b :: rest) =
      match readSec (b :: rest) with
      | none => none
      | some (p, c) =>
        match decodeAll ((b :: rest).drop c) with
        | some ps => some (p :: ps)
        | none => none := by
  show decodeSecs (rest.length + 1) (b :: rest) = _
  simp only [decodeSecs]
  cases hr : readSec (b :: rest) with
  | none => rfl
  | some q =>
    obtain ⟨p, c⟩ := q
    have hc := readSec_spec hr
    have heq : decodeSecs rest.length ((b :: rest).drop c)
        = decodeAll ((b :: rest).drop c) := by
      apply decodeSecs_congr
      · simp only [List.length_drop, List.length_cons]
        omega
      · exact Nat.le_refl _
    dsimp only
    rw [heq]

/-- Total consumption: the raw slices of the decoded pieces tile the whole
input stream. -/
theorem decodeAll_join : ∀ n : Nat, ∀ bs : List Nat, bs.length ≤ n →
    ∀ ps : List Piece, decodeAll bs = some ps → (ps.map Piece.raw).flatten = bs := by
  intro n
  induction n with
  | zero =>
    intro bs hlen ps h
    have : bs = [] := List.length_eq_zero.mp (Nat.le_zero.mp hlen)
    subst this
    simp only [decodeAll, decodeSecs, Option.some.injEq] at h
    subst h
    rfl
  | succ n ih =>
    intro bs hlen ps h
    cases bs with
    | nil =>
      simp only [decodeAll, decodeSecs, Option.some.injEq] at h
      subst h
      rfl
    | cons b rest =>
      rw [decodeAll_cons] at h
      cases hr : readSec (b :: rest) with
      | none => rw [hr] at h; exact absurd h (by simp)
      | some q =>
        obtain ⟨p, c⟩ := q
        rw [hr] at h
        dsimp only at h
        cases hd : decodeAll ((b :: rest).drop c) with
        | none => rw [hd] at h; exact absurd h (by simp)
        | some ps' =>
          rw [hd] at h
          simp only [Option.some.injEq] at h
          subst h
          obtain ⟨hc1, hc2, hraw⟩ := readSec_spec hr
          have hlen' : ((b :: rest).drop c).length ≤ n := by
            simp only [List.length_drop, List.length_cons] at *
            omega
          have := ih ((b :: rest).drop c) hlen' ps' hd
          simp only [List.map_cons, List.flatten_cons, this, hraw,
            List.take_append_drop]

/-- Decoding distributes over concatenation of decodable streams. -/
theorem decodeAll_append : ∀ n : Nat, ∀ bs : List Nat, bs.length ≤ n →
    ∀ tl ps qs, decodeAll bs = some ps → decodeAll tl = some qs →
    decodeAll (bs ++ tl) = some (ps ++ qs) := by
  intro n
  induction n with
  | zero =>
    intro bs hlen tl ps qs h1 h2
    have : bs = [] := List.length_eq_zero.mp (Nat.le_zero.mp hlen)
    subst this
    simp only [decodeAll, decodeSecs, Option.some.injEq] at h1
    subst h1
    simpa using h2
  | succ n ih =>
    intro bs hlen tl ps qs h1 h2
    cases bs with
    | nil =>
      simp only [decodeAll, decodeSecs, Option.some.injEq] at h1
      subst h1
      simpa using h2
    | cons b rest =>
      rw [decodeAll_cons] at h1
      cases hr : readSec (b :: rest) with
      | none => rw [hr] at h1; exact absurd h1 (by simp)
      | some q =>
        obtain ⟨p, c⟩ := q
        rw [hr] at h1
        dsimp only at h1
        cases hd : decodeAll ((b :: rest).drop c) with
        | none => rw [hd] at h1; exact absurd h1 (by simp)
        | some ps' =>
          rw [hd] at h1
          simp only [Option.some.injEq] at h1
          subst h1
          obtain ⟨hc1, hc2, hraw⟩ := readSec_spec hr
          have hr' : readSec ((b :: rest) ++ tl) = some (p, c) := by
            have := readSec_take hr ((b :: rest).drop c ++ tl)
            rwa [← List.append_assoc, List.take_append_drop] at this
          have hdrop : ((b :: rest) ++ tl).drop c = (b :: rest).drop c ++ tl := by
            rw [List.drop_append_eq_append_drop, Nat.sub_eq_zero_of_le hc2,
              List.drop_zero]
          have hlen' : ((b :: rest).drop c).length ≤ n := by
            simp only [List.length_drop, List.length_cons] at *
            omega
          have hrec := ih ((b :: rest).drop c) hlen' tl ps' qs hd h2
          rw [List.cons_append] at hr' hdrop ⊢
          rw [decodeAll_cons, hr']
          dsimp only
          rw [hdrop, hrec]
          rfl

/-- Each piece produced by a decode is decoded back from its own raw slice,
consuming it entirely. -/
theorem decodeAll_mem_readSec : ∀ n : Nat, ∀ bs : List Nat, bs.length ≤ n →
    ∀ ps : List Piece, decodeAll bs = some ps →
    ∀ p ∈ ps, readSec p.raw = some (p, p.raw.length) := by
  intro n
  induction n with
  | zero =>
    intro bs hlen ps h p hp
    have : bs = [] := List.length_eq_zero.mp (Nat.le_zero.mp hlen)
    subst this
    simp only [decodeAll, decodeSecs, Option.some.injEq] at h
    subst h
    simp at hp
  | succ n ih =>
    intro bs hlen ps h p hp
    cases bs with
    | nil =>
      simp only [decodeAll, decodeSecs, Option.some.injEq] at h
      subst h
      simp at hp
    | cons b rest =>
      rw [decodeAll_cons] at h
      cases hr : readSec (b :: rest) with
      | none => rw [hr] at h; exact absurd h (by simp)
      | some q =>
        obtain ⟨p', c⟩ := q
        rw [hr] at h
        dsimp only at h
        cases hd : decodeAll ((b :: rest).drop c) with
        | none => rw [hd] at h; exact absurd h (by simp)
        | some ps' =>
          rw [hd] at h
          simp only [Option.some.injEq] at h
          subst h
          obtain ⟨hc1, hc2, hraw⟩ := readSec_spec hr
          cases List.mem_cons.mp hp with
          | inl hhead =>
            subst hhead
            have hlenraw : p.raw.length = c := by
              rw [hraw, List.length_take]
              omega
            have := readSec_take hr ([] : List Nat)
            rw [List.append_nil, ← hraw] at this
            rw [this, hlenraw]
          | inr htail =>
            have hlen' : ((b :: rest).drop c).length ≤ n := by
              simp only [List.length_drop, List.length_cons] at *
              omega
            exact ih ((b :: rest).drop c) hlen' ps' hd p htail

/-- A raw slice that decodes as one whole section decodes alone. -/
theorem decodeAll_single {bs : List Nat} {p : Piece}
    (h : readSec bs = some (p, bs.length)) : decodeAll bs = some [p] := by
  cases bs with
  | nil => simp [readSec] at h
  | cons b rest =>
    rw [decodeAll_cons, h]
    dsimp only
    rw [List.drop_length]
    rfl

/-- Concatenating self-decoding raw slices decodes to the piece list. -/
theorem decodeAll_ofSelf : ∀ ps : List Piece,
    (∀ p ∈ ps, readSec p.raw = some (p, p.raw.length)) →
    decodeAll ((ps.map Piece.raw).flatten) = some ps := by
  intro ps
  induction ps with
  | nil => intro _; rfl
  | cons p ps ih =>
    intro h
    have hp := h p (List.mem_cons_self p ps)
    have hps := ih fun q hq => h q (List.mem_cons_of_mem p hq)
    simp only [List.map_cons, List.flatten_cons]
    exact decodeAll_append p.raw.length p.raw (Nat.le_refl _) _ [p] ps
      (decodeAll_single hp) hps

/-- The section emitted by `append_archive` decodes as one whole custom
section carrying exactly the section name and the tar bytes. -/
theorem readSec_appendArchive (secName tar : List Nat) :
    readSec (appendArchive secName tar)
      = some (⟨.custom secName tar, appendArchive secName tar⟩,
          (appendArchive secName tar).length) := by
  have hH : (uleb secName.length ++ secName).length
      = (uleb secName.length).length + secName.length := List.length_append _ _
  have hcs : ((uleb secName.length ++ secName) ++ tar).length
      = tar.length + (uleb secName.length ++ secName).length := by
    simp only [List.length_append]
    omega
  have hu1 : readUleb ((uleb (tar.length + (uleb secName.length ++ secName).length))
        ++ ((uleb secName.length ++ secName) ++ tar))
      = some (tar.length + (uleb secName.length ++ secName).length,
          (uleb (tar.length + (uleb secName.length ++ secName).length)).length) :=
    readUleb_uleb _ _
  simp only [appendArchive, readSec, hu1]
  have hlen : tar.length + (uleb secName.length ++ secName).length
        + (uleb (tar.length + (uleb secName.length ++ secName).length)).length
      ≤ ((uleb (tar.length + (uleb secName.length ++ secName).length))
        ++ ((uleb secName.length ++ secName) ++ tar)).length := by
    simp only [List.length_append]
    omega
  rw [if_pos ⟨by norm_num, hlen⟩]
  have hdrop : ((uleb (tar.length + (uleb secName.length ++ secName).length))
        ++ ((uleb secName.length ++ secName) ++ tar)).drop
        (uleb (tar.length + (uleb secName.length ++ secName).length)).length
      = (uleb secName.length ++ secName) ++ tar := List.drop_left _ _
  have htake : ((uleb secName.length ++ secName) ++ tar).take
        (tar.length + (uleb secName.length ++ secName).length)
      = (uleb secName.length ++ secName) ++ tar := by
    apply List.take_of_length_le
    omega
  rw [hdrop, htake]
  have hmk : mkSection 0 ((uleb secName.length ++ secName) ++ tar)
      = some (.custom secName tar) := by
    have hu2 : readUleb ((uleb secName.length ++ secName) ++ tar)
        = some (secName.length, (uleb secName.length).length) := by
      rw [List.append_assoc]
      exact readUleb_uleb _ _
    have hg2 : secName.length + (uleb secName.length).length
        ≤ ((uleb secName.length ++ secName) ++ tar).length := by
      simp only [List.length_append]
      omega
    have hdrop2 : ((uleb secName.length ++ secName) ++ tar).drop
          (uleb secName.length).length = secName ++ tar := by
      rw [List.append_assoc]
      exact List.drop_left _ _
    have hdrop3 : ((uleb secName.length ++ secName) ++ tar).drop
          ((uleb secName.length).length + secName.length) = tar :=
      List.drop_left' hH
    unfold mkSection
    rw [if_pos rfl, hu2]
    dsimp only
    rw [if_pos hg2, hdrop2, hdrop3, List.take_left]
  rw [hmk]
  have hraw : ((uleb (tar.length + (uleb secName.length ++ secName).length))
        ++ ((uleb secName.length ++ secName) ++ tar)).take
        ((uleb (tar.length + (uleb secName.length ++ secName).length)).length
          + (tar.length + (uleb secName.length ++ secName).length))
      = (uleb (tar.length + (uleb secName.length ++ secName).length))
        ++ ((uleb secName.length ++ secName) ++ tar) := by
    apply List.take_of_length_le
    simp only [List.length_append]
    omega
  rw [hraw]
  have hfin : (1 : Nat)
        + (uleb (tar.length + (uleb secName.length ++ secName).length)).length
        + (tar.length + (uleb secName.length ++ secName).length)
      = ((0 : Nat) :: ((uleb (tar.length + (uleb secName.length ++ secName).length))
          ++ ((uleb secName.length ++ secName) ++ tar))).length := by
    simp only [List.length_cons, List.length_append]
    omega
  rw [hfin]

/-- The appended archive section decodes alone. -/
theorem decodeAll_appendArchive (secName tar : List Nat) :
    decodeAll (appendArchive secName tar)
      = some [⟨.custom secName tar, appendArchive secName tar⟩] :=
  decodeAll_single (readSec_appendArchive secName tar)

/-- Split a successful module decode into its header check and section
decode. -/
theorem decodeModule_elim {M : List Nat} {ps : List Piece}
    (h : decodeModule M = some ps) :
    M.take 8 = wasmMagic ∧ decodeAll (M.drop 8) = some ps := by
  by_cases hm : M.take 8 = wasmMagic
  · refine ⟨hm, ?_⟩
    simpa only [decodeModule, hm, if_true] using h
  · simp [decodeModule, hm] at h

/-- The default stream kept by `mkOut` (the non-matching raw slices) decodes
back to the non-matching pieces. -/
theorem decodeAll_filtered {bs : List Nat} {ps : List Piece} (s : List Nat)
    (h : decodeAll bs = some ps) :
    decodeAll (((ps.filter fun p => !p.matchesName s).map Piece.raw).flatten)
      = some (ps.filter fun p => !p.matchesName s) := by
  apply decodeAll_ofSelf
  intro p hp
  exact decodeAll_mem_readSec bs.length bs (Nat.le_refl _) ps h p
    (List.mem_filter.mp hp).1

/-- Reparsing the default stream with the fresh archive section appended
decodes as the kept pieces followed by the archive piece. -/
theorem decodeModule_rebuilt {M : List Nat} {ps : List Piece} (s tar : List Nat)
    (h : decodeModule M = some ps) :
    decodeModule ((mkOut s ps).defaults ++ appendArchive s tar)
      = some ((ps.filter fun p => !p.matchesName s)
          ++ [⟨.custom s tar, appendArchive s tar⟩]) := by
  obtain ⟨hm, hd⟩ := decodeModule_elim h
  have hmagiclen : wasmMagic.length = 8 := rfl
  have hdef : (mkOut s ps).defaults
      = wasmMagic ++ ((ps.filter fun p => !p.matchesName s).map Piece.raw).flatten :=
    rfl
  rw [hdef, List.append_assoc]
  unfold decodeModule
  rw [List.take_left' hmagiclen, if_pos rfl, List.drop_left' hmagiclen]
  have hflt := decodeAll_filtered s hd
  have harc := decodeAll_appendArchive s tar
  exact decodeAll_append _ _ (Nat.le_refl _) _ _ _ hflt harc

/-- The archive piece matches the section name; a kept piece does not. -/
theorem matchesName_arcPiece (s tar : List Nat) :
    Piece.matchesName s ⟨.custom s tar, appendArchive s tar⟩ = true := by
  simp [Piece.matchesName]

/-- Reassembled output of `mkOut` over the kept pieces plus the archive
piece: exactly one matching custom section, carrying the tar bytes, and the
same default stream. -/
theorem mkOut_rebuilt (s tar : List Nat) (ps : List Piece) :
    mkOut s ((ps.filter fun p => !p.matchesName s)
        ++ [⟨.custom s tar, appendArchive s tar⟩])
      = ⟨[tar], (mkOut s ps).defaults⟩ := by
  have hnone : ∀ p ∈ ps.filter fun p => !p.matchesName s,
      p.matchesName s = false := by
    intro p hp
    have := (List.mem_filter.mp hp).2
    simpa using this
  have hfilter1 : ((ps.filter fun p => !p.matchesName s).filter
        fun p => p.matchesName s) = [] := by
    rw [List.filter_eq_nil_iff]
    intro p hp
    simp [hnone p hp]
  have hfilter2 : ((ps.filter fun p => !p.matchesName s).filter
        fun p => !p.matchesName s) = ps.filter fun p => !p.matchesName s := by
    rw [List.filter_eq_self]
    intro p hp
    simp [hnone p hp]
  unfold mkOut
  simp only [List.filter_append, hfilter1, hfilter2, List.filter_cons,
    List.filter_nil, matchesName_arcPiece, Bool.not_true, List.map_append,
    List.flatten_append, ParseOut.mk.injEq]
  constructor
  · rfl
  · simp

/-- All pieces of a plain module are kept, and their raw slices reassemble
the module bytes. -/
theorem mkOut_plain {M : List Nat} {ps : List Piece}
    (h : decodeModule M = some ps)
    (hplain : ∀ p ∈ ps, p.matchesName resourcesName = false) :
    mkOut resourcesName ps = ⟨[], M⟩ := by
  obtain ⟨hm, hd⟩ := decodeModule_elim h
  have hfilter1 : (ps.filter fun p => p.matchesName resourcesName) = [] := by
    rw [List.filter_eq_nil_iff]
    intro p hp
    simp [hplain p hp]
  have hfilter2 : (ps.filter fun p => !p.matchesName resourcesName) = ps := by
    rw [List.filter_eq_self]
    intro p hp
    simp [hplain p hp]
  have hjoin := decodeAll_join (M.drop 8).length (M.drop 8) (Nat.le_refl _) ps hd
  unfold mkOut
  rw [hfilter1, hfilter2, hjoin, ← hm, List.take_append_drop]
  rfl

/-- C2: `append_archive` emits exactly the `0x00` section id, then the
ULEB128 content size — equal to the length of the ULEB128 name length plus
the name bytes plus the tar bytes —, then the ULEB128 name length, the name
bytes, and the tar bytes; both ULEB128 integers decode back to their values
and are minimal among all accepted encodings. -/
theorem append_archive_framing (nm tar : List Nat) :
    appendArchive nm tar
      = 0 :: (uleb ((uleb nm.length).length + nm.length + tar.length)
          ++ (uleb nm.length ++ (nm ++ tar)))
    ∧ readUleb (uleb ((uleb nm.length).length + nm.length + tar.length))
        = some ((uleb nm.length).length + nm.length + tar.length,
            (uleb ((uleb nm.length).length + nm.length + tar.length)).length)
    ∧ readUleb (uleb nm.length) = some (nm.length, (uleb nm.length).length)
    ∧ (∀ bs k, readUleb bs
        = some ((uleb nm.length).length + nm.length + tar.length, k)
        → (uleb ((uleb nm.length).length + nm.length + tar.length)).length ≤ k)
    ∧ (∀ bs k, readUleb bs = some (nm.length, k) → (uleb nm.length).length ≤ k) := by
  refine ⟨?_, ?_, ?_, ?_, ?_⟩
  · unfold appendArchive
    have harg : tar.length + (uleb nm.length ++ nm).length
        = (uleb nm.length).length + nm.length + tar.length := by
      simp only [List.length_append]
      omega
    rw [harg, List.append_assoc]
  · have := readUleb_uleb ((uleb nm.length).length + nm.length + tar.length) []
    rwa [List.append_nil] at this
  · have := readUleb_uleb nm.length []
    rwa [List.append_nil] at this
  · intro bs k hk
    exact uleb_minimal hk
  · intro bs k hk
    exact uleb_minimal hk

/-- C2 witness: the framing theorem evaluated at name `"."` (byte 46) and a
two-byte tar payload. -/
theorem append_archive_framing_witness :
    appendArchive [46] [9, 9] = [0, 4, 1, 46, 9, 9]
    ∧ readUleb (uleb 4) = some (4, 1)
    ∧ readUleb (uleb 1) = some (1, 1)
    ∧ (∀ bs k, readUleb bs = some (4, k) → 1 ≤ k)
    ∧ (∀ bs k, readUleb bs = some (1, k) → 1 ≤ k) :=
  append_archive_framing [46] [9, 9]

/-- C10: rebundling a module that already carries custom sections with the
configured name succeeds, forwards everything except those sections, and
appends one fresh section of that name, so reparsing the output delivers
exactly one custom payload — the new tar — and the same default stream. -/
theorem build_replaces_section (M s tar : List Nat) (out : ParseOut)
    (h : bundleParse M s = some out) :
    bundleBuild M s tar = some (out.defaults ++ appendArchive s tar)
    ∧ bundleParse (out.defaults ++ appendArchive s tar) s
        = some ⟨[tar], out.defaults⟩ := by
  unfold bundleParse at h
  cases hd : decodeModule M with
  | none => rw [hd] at h; exact absurd h (by simp)
  | some ps =>
    rw [hd] at h
    simp only [Option.map_some', Option.some.injEq] at h
    subst h
    constructor
    · unfold bundleBuild bundleParse
      rw [hd]
      rfl
    · unfold bundleParse
      rw [decodeModule_rebuilt s tar hd]
      simp only [Option.map_some', Option.some.injEq]
      exact mkOut_rebuilt s tar ps

/-- C10 witness: a module already holding a custom section named `"A"`
(byte 65) is rebundled; the old payload `[9]` is dropped and the fresh
payload `[7]` is the only custom section in the output. -/
theorem build_replaces_section_witness :
    bundleBuild (wasmMagic ++ [0, 3, 1, 65, 9]) [65] [7]
        = some ((⟨[[9]], wasmMagic⟩ : ParseOut).defaults ++ appendArchive [65] [7])
    ∧ bundleParse ((⟨[[9]], wasmMagic⟩ : ParseOut).defaults
          ++ appendArchive [65] [7]) [65]
        = some ⟨[[7]], (⟨[[9]], wasmMagic⟩ : ParseOut).defaults⟩ :=
  build_replaces_section (wasmMagic ++ [0, 3, 1, 65, 9]) [65] [7]
    ⟨[[9]], wasmMagic⟩ (by rfl)

/-- C1: for a plain module (no `.enarx.resources` custom section), `parse`
never invokes `on_custom` and forwards exactly the module bytes; building
with a tar archive appends one resources section, and parsing the built
output delivers exactly the tar archive to `on_custom` while the default
stream equals the original module. -/
theorem bundle_roundtrip (M tar : List Nat) (out : ParseOut)
    (h : bundleParse M resourcesName = some out)
    (hplain : plainModule M = true) :
    out.customs = [] ∧ out.defaults = M
    ∧ bundleBuild M resourcesName tar
        = some (M ++ appendArchive resourcesName tar)
    ∧ bundleParse (M ++ appendArchive resourcesName tar) resourcesName
        = some ⟨[tar], M⟩ := by
  unfold bundleParse at h
  cases hd : decodeModule M with
  | none => rw [hd] at h; exact absurd h (by simp)
  | some ps =>
    rw [hd] at h
    simp only [Option.map_some', Option.some.injEq] at h
    subst h
    have hplain' : ∀ p ∈ ps, p.matchesName resourcesName = false := by
      unfold plainModule at hplain
      rw [hd, List.all_eq_true] at hplain
      intro p hp
      have := hplain p hp
      simpa using this
    have hout := mkOut_plain hd hplain'
    refine ⟨by rw [hout], by rw [hout], ?_, ?_⟩
    · unfold bundleBuild bundleParse
      rw [hd]
      simp only [Option.map_some', Option.some.injEq, hout]
    · unfold bundleParse
      have hM : M ++ appendArchive resourcesName tar
          = (mkOut resourcesName ps).defaults ++ appendArchive resourcesName tar := by
        rw [hout]
      rw [hM, decodeModule_rebuilt resourcesName tar hd]
      simp only [Option.map_some', Option.some.injEq]
      rw [mkOut_rebuilt resourcesName tar ps, hout]

/-- C1 witness: a plain module consisting of the header and one type-like
section round-trips through build and parse with tar payload `[7, 8]`. -/
theorem bundle_roundtrip_witness :
    (⟨[], wasmMagic ++ [1, 1, 42]⟩ : ParseOut).customs = []
    ∧ (⟨[], wasmMagic ++ [1, 1, 42]⟩ : ParseOut).defaults = wasmMagic ++ [1, 1, 42]
    ∧ bundleBuild (wasmMagic ++ [1, 1, 42]) resourcesName [7, 8]
        = some ((wasmMagic ++ [1, 1, 42]) ++ appendArchive resourcesName [7, 8])
    ∧ bundleParse ((wasmMagic ++ [1, 1, 42]) ++ appendArchive resourcesName [7, 8])
        resourcesName = some ⟨[[7, 8]], wasmMagic ++ [1, 1, 42]⟩ :=
  bundle_roundtrip (wasmMagic ++ [1, 1, 42]) [7, 8]
    ⟨[], wasmMagic ++ [1, 1, 42]⟩ (by rfl) (by rfl)

/-! ## Virtual filesystem (model of `src/virtfs.rs`)

Rust `std::path` is modelled on slash-separated segments: a raw path is an
`absolute` flag plus a list of `Seg`s; `components` applies the documented
normalization (`.` segments are dropped except a leading one, which becomes
`CurDir`); `parent` and `file_name` follow their `std` definitions over the
normalized component list.  The external `tar` crate is modelled by a list
of well-formed entries (`TarEnt`), each carrying its `raw_file_position`
(`pos`), entry type, stored path and data bytes; the header size of a
well-formed entry equals its data length. -/

/-- One slash-separated segment of a stored tar path.  `name none` models a
segment whose bytes are not valid UTF-8 (so `OsStr::to_str` fails). -/
inductive Seg where
  | dot
  | dotdot
  | name (s : Option String)
deriving DecidableEq

/-- A Rust `std::path::Component` as observable on the unix target (the
`Prefix` component cannot occur there). -/
inductive PComponent where
  | rootDir
  | curDir
  | parentDir
  | normal (s : Option String)
deriving DecidableEq

/-- Normalization of one non-leading segment: `.` disappears, `..` becomes
`ParentDir`, anything else is `Normal`. -/
def segComp : Seg → Option PComponent
  | .dot => none
  | .dotdot => some .parentDir
  | .name s => some (.normal s)

/-- Rust `Path::components`: a leading `/` yields `RootDir`; a leading `.`
on a relative path yields `CurDir`; all other `.` segments are normalized
away. -/
def components (absolute : Bool) (segs : List Seg) : List PComponent :=
  if absolute then .rootDir :: segs.filterMap segComp
  else
    match segs with
    | .dot :: rest => .curDir :: rest.filterMap segComp
    | _ => segs.filterMap segComp

/-- Rust `Path::parent` over the normalized components: `none` for the empty
path or a path that is just a root, otherwise the components without the
last one. -/
def parentComps (comps : List PComponent) : Option (List PComponent) :=
  match comps.getLast? with
  | none => none
  | some .rootDir => none
  | some _ => some comps.dropLast

/-- Rust `Path::file_name`: the final component if it is `Normal` (still an
`OsStr`, possibly non-UTF-8), `none` otherwise. -/
def fileNameOs (comps : List PComponent) : Option (Option String) :=
  match comps.getLast? with
  | some (.normal s) => some s
  | _ => none

/-- `file_name()?.to_str()?` as used by `lookup`: the final component when
it is `Normal` and valid UTF-8. -/
def fileNameStr (comps : List PComponent) : Option String :=
  match comps.getLast? with
  | some (.normal (some s)) => some s
  | _ => none

/-- Tar entry types distinguished by `populate`. -/
inductive EType where
  | regular
  | directory
  | other
deriving DecidableEq

/-- A well-formed entry of the backing tar archive: `pos` is the entry's
`raw_file_position` inside the archive buffer, and `data` its content (whose
length is the header size). -/
structure TarEnt where
  pos : Nat
  etype : EType
  absolute : Bool
  segs : List Seg
  data : List Nat
deriving DecidableEq

/-- `virtfs::TarFileContents`: a shared handle on the archive plus the
entry's `raw_file_position`. -/
structure TarFileContents where
  content : List TarEnt
  offset : Nat
deriving DecidableEq

/-- The `wasi_common` errno values this code returns. -/
inductive Errno where
  | inval
  | noent
deriving DecidableEq

/-- `TarFileContents::get_entry`: scan the archive entries for the one whose
`raw_file_position` equals the stored offset. -/
def TarFileContents.getEntry (f : TarFileContents) : Option TarEnt :=
  f.content.find? fun e => e.pos == f.offset

/-- `FileContents::pread` for `TarFileContents`: locate the entry, cap the
read count at `min (buffer length) (size - offset)` (saturating), skip
`offset` bytes of the entry and read the capped count.  Returns the bytes
written into the buffer prefix. -/
def TarFileContents.pread (f : TarFileContents) (bufLen off : Nat) :
    Except Errno (List Nat) :=
  match f.getEntry with
  | none => .error .noent
  | some e =>
    let size := e.data.length
    let remaining := size - off
    let cnt := min bufLen remaining
    .ok ((e.data.drop off).take cnt)

/-- `FileContents::size` for `TarFileContents`: the header size of the
located entry, or 0 when the lookup fails (`try_size().unwrap_or(0)`). -/
def TarFileContents.size (f : TarFileContents) : Nat :=
  match f.getEntry with
  | none => 0
  | some e => e.data.length

/-- `FileContents::pwrite`: unconditionally `Err(Inval)`, file untouched. -/
def TarFileContents.pwrite (f : TarFileContents) (_buf : List Nat) (_off : Nat) :
    TarFileContents × Except Errno Nat :=
  (f, .error .inval)

/-- `FileContents::pwritev`: unconditionally `Err(Inval)`, file untouched. -/
def TarFileContents.pwritev (f : TarFileContents) (_iovs : List (List Nat))
    (_off : Nat) : TarFileContents × Except Errno Nat :=
  (f, .error .inval)

/-- `FileContents::resize`: unconditionally `Err(Inval)`, file untouched. -/
def TarFileContents.resize (f : TarFileContents) (_newSize : Nat) :
    TarFileContents × Except Errno Nat :=
  (f, .error .inval)

/-- The error outcomes of `populate`: `std::io` `InvalidInput`, or the
`unreachable!()` hit when a path descends through an existing file. -/
inductive PErr where
  | invalidInput
  | panicked
deriving DecidableEq

/-- `virtfs::TarDirEntry`: a directory mapping names to entries (the
`HashMap` is modelled as an association list with replacing insert), or a
file backed by the archive. -/
inductive TarDirEntry where
  | directory (entries : List (String × TarDirEntry))
  | file (contents : TarFileContents)

/-- `HashMap::get` on the association-list model. -/
def assocGet : List (String × TarDirEntry) → String → Option TarDirEntry
  | [], _ => none
  | (k, v) :: rest, key => if k = key then some v else assocGet rest key

/-- `HashMap::insert` on the association-list model (replaces an existing
binding). -/
def assocInsert : List (String × TarDirEntry) → String → TarDirEntry →
    List (String × TarDirEntry)
  | [], key, v => [(key, v)]
  | (k, w) :: rest, key, v =>
    if k = key then (key, v) :: rest else (k, w) :: assocInsert rest key v

/-- `TarDirEntry::populate_directory`, in functional form: walk `comps`
from `dir`, rejecting non-`Normal` and non-UTF-8 components with
`InvalidInput`, creating missing directories, panicking (`unreachable!`)
when an existing file is in the way, and apply `f` at the target. -/
def modifyAt : TarDirEntry → List PComponent →
    (TarDirEntry → Except PErr TarDirEntry) → Except PErr TarDirEntry
  | dir, [], f => f dir
  | dir, c :: rest, f =>
    match c with
    | .normal (some nm) =>
      match dir with
      | .directory m =>
        match modifyAt ((assocGet m nm).getD (.directory [])) rest f with
        | .ok child => .ok (.directory (assocInsert m nm child))
        | .error e => .error e
      | .file _ => .error .panicked
    | _ => .error .invalidInput

/-- `TarDirEntry::populate`: a `Regular` entry creates its parent
directories and inserts a `TarFileContents` handle under its file name; a
`Directory` entry just creates the directory chain; all other entry types
are skipped. -/
def populate (root : TarDirEntry) (arch : List TarEnt) (e : TarEnt) :
    Except PErr TarDirEntry :=
  match e.etype with
  | .regular =>
    match parentComps (components e.absolute e.segs) with
    | some pcs =>
      modifyAt root pcs fun parent =>
        match parent with
        | .directory m =>
          match fileNameOs (components e.absolute e.segs) with
          | some (some nm) =>
            .ok (.directory (assocInsert m nm (.file ⟨arch, e.pos⟩)))
          | _ => .error .invalidInput
        | .file _ => .error .panicked
    | none =>
      match root with
      | .directory m =>
        match fileNameOs (components e.absolute e.segs) with
        | some (some nm) =>
          .ok (.directory (assocInsert m nm (.file ⟨arch, e.pos⟩)))
        | _ => .error .invalidInput
      | .file _ => .error .panicked
  | .directory => modifyAt root (components e.absolute e.segs) fun d => .ok d
  | .other => .ok root

/-- A stored path for `lookup` (Rust `PathBuf`): absolute flag plus
segments. -/
structure RPath where
  absolute : Bool
  segs : List Seg
deriving DecidableEq

/-- The descent loop of `TarDirEntry::lookup` over the parent components:
any non-`Normal` or non-UTF-8 component, missing name, or non-directory
yields `None`. -/
def descend : TarDirEntry → List PComponent → Option TarDirEntry
  | dir, [] => some dir
  | dir, c :: rest =>
    match c with
    | .normal (some nm) =>
      match dir with
      | .directory m =>
        match assocGet m nm with
        | some child => descend child rest
        | none => none
      | .file _ => none
    | _ => none

/-- `TarDirEntry::lookup`. -/
def TarDirEntry.lookup (root : TarDirEntry) (p : RPath) : Option TarDirEntry :=
  match parentComps (components p.absolute p.segs) with
  | some pcs =>
    match descend root pcs with
    | some dir =>
      match fileNameStr (components p.absolute p.segs) with
      | some nm =>
        match dir with
        | .directory m => assocGet m nm
        | .file _ => none
      | none => none
    | none => none
  | none =>
    match fileNameStr (components p.absolute p.segs) with
    | some nm =>
      match root with
      | .directory m => assocGet m nm
      | .file _ => none
    | none => none

/-- Trees that contain only directories (no file in the way of a descent). -/
inductive DirsOnly : TarDirEntry → Prop where
  | dir (m : List (String × TarDirEntry)) (h : ∀ e ∈ m, DirsOnly e.2) :
      DirsOnly (.directory m)

/-! ## Workload runtime adapter (model of `src/workload.rs::run` up to the
WASI context build)

`run` populates the VFS root from the module bytes, reads `config.yaml`
from the root if present, wires stdin/stdout/stderr on the WASI context
builder according to the deployment config, and then builds the context.
The model takes the populated root directly (as an association list of the
root directory), the external YAML deserializer as a `parseCfg` parameter,
the host `open` calls as boolean-outcome parameters, and the external
wasi-common context build (where the args/envs string table is
materialized) as a boolean-outcome parameter.  It records exactly which
builder stdio configuration calls `run` performs. -/

/-- Modelled from the spec: the `config::Handle` variant referenced by
`workload.rs` (this config-type variant is not among the provided sources;
the spec gives `Null | Inherit | File(host-path) | Bundle(vfs-path)`, with
`Bundle` only honored for stdin). -/
inductive Handle where
  | null
  | inherit
  | file (path : String)
  | bundle (path : RPath)
deriving DecidableEq

/-- The `stdio` table of the deployment config as `workload.rs` consumes it
(each stream is optional; absent streams get no builder call). -/
structure Stdio where
  stdin : Option Handle
  stdout : Option Handle
  stderr : Option Handle
deriving DecidableEq

/-- The deployment config document. -/
structure DeployConfig where
  stdio : Stdio
deriving DecidableEq

/-- `workload::Error`, exactly the variants of the source enum (the
`IoError` payload — a host `std::io::Error` — is dropped). -/
inductive WError where
  | configurationError
  | exportNotFound
  | instantiationFailed
  | callFailed
  | ioError
deriving DecidableEq

/-- The configuration state of one standard stream on the WASI context
builder after `run`'s wiring: untouched (builder default), inherited from
the host, an opened host file, or an in-memory VFS file (stdin only). -/
inductive StreamCfg where
  | unset
  | inherited
  | osFile (path : String)
  | virtFile (f : TarFileContents)
deriving DecidableEq

/-- The config-read loop of `run`: repeatedly `pread` at the current
length, stop on a zero-length read, growing the buffer by `2 * len` after
each successful read.  Fuel only serves termination; `readAll` supplies
enough for every well-formed file. -/
def readAllLoop (f : TarFileContents) :
    Nat → Nat → Nat → List Nat → Except Errno (List Nat)
  | 0, _, _, _ => .error .inval
  | fuel + 1, bufLen, len, acc =>
    match f.pread (bufLen - len) len with
    | .error e => .error e
    | .ok bytes =>
      if bytes.length = 0 then .ok acc
      else readAllLoop f fuel (bufLen + (len + bytes.length) * 2)
        (len + bytes.length) (acc ++ bytes)

/-- The whole config-read loop, started on a buffer of `size()` bytes. -/
def readAll (f : TarFileContents) : Except Errno (List Nat) :=
  readAllLoop f (f.size + 2) f.size 0 []

/-- The `config.yaml` phase of `run`: look the entry up in the root map,
read it fully (read or YAML failures are `InstantiationFailed`), and
deserialize it; a missing entry or a directory entry yields no config. -/
def loadConfig (rootMap : List (String × TarDirEntry))
    (parseCfg : List Nat → Option DeployConfig) :
    Except WError (Option DeployConfig) :=
  match assocGet rootMap "config.yaml" with
  | some (.file content) =>
    match readAll content with
    | .error _ => .error .instantiationFailed
    | .ok bytes =>
      match parseCfg bytes with
      | none => .error .instantiationFailed
      | some cfg => .ok (some cfg)
  | _ => .ok none

/-- The stdin wiring of `run`: `Inherit` inherits, `File` opens the host
path read-only (failure is the propagated `IoError`), `Bundle` resolves the
VFS path — missing or directory entries are `ConfigurationError`, a file is
wrapped as an in-memory stream — and `Null`/absent performs no call. -/
def setStdin (root : TarDirEntry) (openRead : String → Bool) :
    Option Handle → Except WError StreamCfg
  | some .inherit => .ok .inherited
  | some (.file p) => if openRead p then .ok (.osFile p) else .error .ioError
  | some (.bundle p) =>
    match root.lookup p with
    | none => .error .configurationError
    | some (.directory _) => .error .configurationError
    | some (.file f) => .ok (.virtFile f)
  | _ => .ok .unset

/-- The stdout/stderr wiring of `run`: `Inherit` inherits, `File` opens the
host path for create/truncate/write, and everything else — `Null`, absent,
and also `Bundle` — performs no call. -/
def setWrite (openWrite : String → Bool) :
    Option Handle → Except WError StreamCfg
  | some .inherit => .ok .inherited
  | some (.file p) => if openWrite p then .ok (.osFile p) else .error .ioError
  | _ => .ok .unset

/-- `run` from the populated VFS root up to the WASI context build, in
source order: load the config, wire stdin, stdout, stderr, then build the
context (`buildOk` is the outcome of `wasi_common`'s builder `build()`,
which materializes the args/envs string table; its failure is mapped to
`InstantiationFailed`). -/
def runModel (rootMap : List (String × TarDirEntry))
    (parseCfg : List Nat → Option DeployConfig)
    (openRead openWrite : String → Bool) (buildOk : Bool) :
    Except WError (StreamCfg × StreamCfg × StreamCfg) :=
  match loadConfig rootMap parseCfg with
  | .error e => .error e
  | .ok none =>
    if buildOk then .ok (.unset, .unset, .unset) else .error .instantiationFailed
  | .ok (some cfg) =>
    match setStdin (.directory rootMap) openRead cfg.stdio.stdin with
    | .error e => .error e
    | .ok a =>
      match setWrite openWrite cfg.stdio.stdout with
      | .error e => .error e
      | .ok b =>
        match setWrite openWrite cfg.stdio.stderr with
        | .error e => .error e
        | .ok c =>
          if buildOk then .ok (a, b, c) else .error .instantiationFailed

/-! ## Attestation client (model of `src/attestation.rs::attest`) -/

/-- The attestation outcome (`attestation::Attestation`). -/
inductive Attestation where
  | noReport
  | sev (len : Nat)
  | sgx (len : Nat)
deriving DecidableEq

/-- The error outcomes of `attest`: an OS error carrying the errno passed to
`Error::from_raw_os_error` (an `i32`), or `ErrorKind::Other`. -/
inductive AttErr where
  | osError (errno : Int)
  | otherError
deriving DecidableEq

/-- Two's-complement truncation to 32 bits, the meaning of Rust's
`as i32` cast. -/
def toInt32 (z : Int) : Int :=
  (z + 2 ^ 31) % 2 ^ 32 - 2 ^ 31

/-- The decoding `attest` applies to the pseudo-syscall outcome: `rax` is
the signed length register (an `isize`), `rdx` the TEE-kind discriminator.
A negative `rax` is an OS error with errno `-rax as i32`; otherwise the
discriminator selects the report kind, `0` meaning none regardless of
`rax`, and anything above `2` is `ErrorKind::Other`. -/
def attestDecode (rax : Int) (rdx : Nat) : Except AttErr Attestation :=
  if rax < 0 then .error (.osError (toInt32 (-rax)))
  else if rdx = 0 then .ok .noReport
  else if rdx = 1 then .ok (.sev rax.toNat)
  else if rdx = 2 then .ok (.sgx rax.toNat)
  else .error .otherError

/-- Unfolded form of `pread` on a file whose entry is found. -/
theorem pread_eq {f : TarFileContents} {e : TarEnt}
    (hf : f.getEntry = some e) (bufLen off : Nat) :
    f.pread bufLen off
      = .ok ((e.data.drop off).take (min bufLen (e.data.length - off))) := by
  unfold TarFileContents.pread
  rw [hf]

/-- C7: the VFS file read/write protocol.  For a file backed by a tar entry
of size `s = e.data.length`: `pread` at an offset at or past the end reads 0
bytes; `pread` below the end reads `min (buffer length) (s - offset)` bytes
equal to the entry's content from that offset on; `pwrite`, `pwritev` and
`resize` return `Inval` and leave the file unchanged. -/
theorem vfs_read_protocol (arch : List TarEnt) (pos bufLen off : Nat)
    (wbuf : List Nat) (wiovs : List (List Nat)) (wsize : Nat) (e : TarEnt)
    (hfind : TarFileContents.getEntry ⟨arch, pos⟩ = some e) :
    (e.data.length ≤ off →
      TarFileContents.pread ⟨arch, pos⟩ bufLen off = .ok [])
    ∧ (off < e.data.length →
      ∃ bytes, TarFileContents.pread ⟨arch, pos⟩ bufLen off = .ok bytes
        ∧ bytes.length = min bufLen (e.data.length - off)
        ∧ ∀ i, i < bytes.length → bytes[i]? = e.data[off + i]?)
    ∧ TarFileContents.pwrite ⟨arch, pos⟩ wbuf off
        = (⟨arch, pos⟩, .error .inval)
    ∧ TarFileContents.pwritev ⟨arch, pos⟩ wiovs off
        = (⟨arch, pos⟩, .error .inval)
    ∧ TarFileContents.resize ⟨arch, pos⟩ wsize
        = (⟨arch, pos⟩, .error .inval) := by
  refine ⟨?_, ?_, rfl, rfl, rfl⟩
  · intro hoff
    rw [pread_eq hfind]
    have : e.data.length - off = 0 := Nat.sub_eq_zero_of_le hoff
    rw [this]
    simp
  · intro hoff
    refine ⟨(e.data.drop off).take (min bufLen (e.data.length - off)),
      pread_eq hfind bufLen off, ?_, ?_⟩
    · simp only [List.length_take, List.length_drop]
      omega
    · intro i hi
      simp only [List.length_take, List.length_drop] at hi
      rw [List.getElem?_take, if_pos (by omega), List.getElem?_drop]

/-- C7 witness: a two-entry archive; reading the second entry (data
`[10, 20, 30]`) at offset 1 with a 5-byte buffer. -/
theorem vfs_read_protocol_witness :
    (((3 : Nat) ≤ 1 →
      TarFileContents.pread ⟨[⟨0, .regular, false, [.name (some "a")], [5]⟩,
          ⟨512, .regular, false, [.name (some "b")], [10, 20, 30]⟩], 512⟩ 5 1
        = .ok [])
    ∧ ((1 : Nat) < 3 →
      ∃ bytes, TarFileContents.pread ⟨[⟨0, .regular, false, [.name (some "a")], [5]⟩,
          ⟨512, .regular, false, [.name (some "b")], [10, 20, 30]⟩], 512⟩ 5 1
        = .ok bytes
        ∧ bytes.length = min 5 (3 - 1)
        ∧ ∀ i, i < bytes.length →
            bytes[i]? = [(10 : Nat), 20, 30][1 + i]?)
    ∧ TarFileContents.pwrite ⟨[⟨0, .regular, false, [.name (some "a")], [5]⟩,
        ⟨512, .regular, false, [.name (some "b")], [10, 20, 30]⟩], 512⟩ [9] 1
      = (⟨[⟨0, .regular, false, [.name (some "a")], [5]⟩,
          ⟨512, .regular, false, [.name (some "b")], [10, 20, 30]⟩], 512⟩,
        .error .inval)
    ∧ TarFileContents.pwritev ⟨[⟨0, .regular, false, [.name (some "a")], [5]⟩,
        ⟨512, .regular, false, [.name (some "b")], [10, 20, 30]⟩], 512⟩ [[9]] 1
      = (⟨[⟨0, .regular, false, [.name (some "a")], [5]⟩,
          ⟨512, .regular, false, [.name (some "b")], [10, 20, 30]⟩], 512⟩,
        .error .inval)
    ∧ TarFileContents.resize ⟨[⟨0, .regular, false, [.name (some "a")], [5]⟩,
        ⟨512, .regular, false, [.name (some "b")], [10, 20, 30]⟩], 512⟩ 0
      = (⟨[⟨0, .regular, false, [.name (some "a")], [5]⟩,
          ⟨512, .regular, false, [.name (some "b")], [10, 20, 30]⟩], 512⟩,
        .error .inval)) :=
  vfs_read_protocol
    [⟨0, .regular, false, [.name (some "a")], [5]⟩,
      ⟨512, .regular, false, [.name (some "b")], [10, 20, 30]⟩]
    512 5 1 [9] [[9]] 0
    ⟨512, .regular, false, [.name (some "b")], [10, 20, 30]⟩ (by rfl)

/-- A component the populate/lookup walks accept: `Normal` and valid UTF-8. -/
def PComponent.isGood : PComponent → Bool
  | .normal (some _) => true
  | _ => false

/-- `assocGet` only returns bindings of the list. -/
theorem assocGet_mem : ∀ {m : List (String × TarDirEntry)} {key : String}
    {v : TarDirEntry}, assocGet m key = some v → (key, v) ∈ m := by
  intro m
  induction m with
  | nil => intro key v h; simp [assocGet] at h
  | cons kv rest ih =>
    intro key v h
    obtain ⟨k, w⟩ := kv
    simp only [assocGet] at h
    by_cases hk : k = key
    · rw [if_pos hk] at h
      simp only [Option.some.injEq] at h
      subst h
      subst hk
      exact List.mem_cons_self _ _
    · rw [if_neg hk] at h
      exact List.mem_cons_of_mem _ (ih h)

/-- The empty directory is all-directories. -/
theorem dirsOnly_nil : DirsOnly (.directory []) :=
  .dir [] (by intro e he; cases he)

/-- A child fetched (or defaulted) during a descent through an
all-directories tree is itself all-directories. -/
theorem dirsOnly_child {m : List (String × TarDirEntry)} (nm : String)
    (h : DirsOnly (.directory m)) :
    DirsOnly ((assocGet m nm).getD (.directory [])) := by
  cases h with
  | dir m hm =>
    cases hg : assocGet m nm with
    | none => exact dirsOnly_nil
    | some v => exact hm (nm, v) (assocGet_mem hg)

/-- `populate_directory` on a component list containing a non-`Normal` or
non-UTF-8 component fails with `InvalidInput`, provided the descent meets
only directories. -/
theorem modifyAt_bad : ∀ (comps : List PComponent) (dir : TarDirEntry)
    (f : TarDirEntry → Except PErr TarDirEntry), DirsOnly dir →
    (∃ c ∈ comps, c.isGood = false) → modifyAt dir comps f = .error .invalidInput := by
  intro comps
  induction comps with
  | nil =>
    intro dir f hdirs hbad
    obtain ⟨c, hc, -⟩ := hbad
    cases hc
  | cons c rest ih =>
    intro dir f hdirs hbad
    cases hc : c with
    | rootDir => rfl
    | curDir => rfl
    | parentDir => rfl
    | normal s =>
      cases s with
      | none => rfl
      | some nm =>
        cases hdirs with
        | dir m hm =>
          have hbad' : ∃ x ∈ rest, x.isGood = false := by
            obtain ⟨x, hx, hxb⟩ := hbad
            cases List.mem_cons.mp hx with
            | inl hhead =>
              subst hhead
              rw [hc] at hxb
              simp [PComponent.isGood] at hxb
            | inr htail => exact ⟨x, htail, hxb⟩
          have hchild := dirsOnly_child nm (.dir m hm)
          have := ih _ f hchild hbad'
          simp only [modifyAt, this]

/-- `populate_directory` over accepted components reaches an all-directories
target, so a continuation that fails on every directory propagates its
error. -/
theorem modifyAt_err : ∀ (comps : List PComponent) (dir : TarDirEntry)
    (f : TarDirEntry → Except PErr TarDirEntry) (err : PErr), DirsOnly dir →
    (∀ c ∈ comps, c.isGood = true) →
    (∀ t, DirsOnly t → f t = .error err) →
    modifyAt dir comps f = .error err := by
  intro comps
  induction comps with
  | nil =>
    intro dir f err hdirs hgood hf
    exact hf dir hdirs
  | cons c rest ih =>
    intro dir f err hdirs hgood hf
    have hcgood := hgood c (List.mem_cons_self _ _)
    cases hc : c with
    | rootDir => rw [hc] at hcgood; simp [PComponent.isGood] at hcgood
    | curDir => rw [hc] at hcgood; simp [PComponent.isGood] at hcgood
    | parentDir => rw [hc] at hcgood; simp [PComponent.isGood] at hcgood
    | normal s =>
      cases s with
      | none => rw [hc] at hcgood; simp [PComponent.isGood] at hcgood
      | some nm =>
        cases hdirs with
        | dir m hm =>
          have hchild := dirsOnly_child nm (.dir m hm)
          have := ih _ f err hchild
            (fun x hx => hgood x (List.mem_cons_of_mem _ hx)) hf
          simp only [modifyAt, this]

/-- C8 (as corrected): for every `Regular` or `Directory` tar entry whose
stored path normalizes to components containing any non-`Normal` component
(`RootDir`, `CurDir` — including the one produced by a leading `./`, which
is not normalized away — or `ParentDir`) or any non-UTF-8 component,
`populate` fails with `InvalidInput`, provided the descent meets only
directories (an existing file in the way panics instead); entry types other
than `Regular`/`Directory` are skipped without validation. -/
theorem populate_rejects_bad_components
    (root : TarDirEntry) (arch : List TarEnt) (e : TarEnt)
    (hdirs : DirsOnly root)
    (htype : e.etype = .regular ∨ e.etype = .directory)
    (hbad : ((components e.absolute e.segs).any fun c => !c.isGood) = true) :
    populate root arch e = .error .invalidInput := by
  have hbad' : ∃ c ∈ components e.absolute e.segs, c.isGood = false := by
    rw [List.any_eq_true] at hbad
    obtain ⟨c, hc, hcb⟩ := hbad
    exact ⟨c, hc, by simpa using hcb⟩
  cases htype with
  | inr hdir =>
    unfold populate
    rw [hdir]
    exact modifyAt_bad _ root _ hdirs hbad'
  | inl hreg =>
    unfold populate
    rw [hreg]
    dsimp only
    cases hpc : parentComps (components e.absolute e.segs) with
    | none =>
      unfold parentComps at hpc
      cases hlast : (components e.absolute e.segs).getLast? with
      | none =>
        rw [List.getLast?_eq_none_iff] at hlast
        rw [hlast] at hbad'
        obtain ⟨c, hc, -⟩ := hbad'
        cases hc
      | some c =>
        rw [hlast] at hpc
        cases c with
        | rootDir =>
          cases hdirs with
          | dir m hm =>
            dsimp only
            unfold fileNameOs
            rw [hlast]
        | curDir => cases hpc
        | parentDir => cases hpc
        | normal s => cases hpc
    | some pcs =>
      unfold parentComps at hpc
      cases hlast : (components e.absolute e.segs).getLast? with
      | none => rw [hlast] at hpc; cases hpc
      | some c =>
        rw [hlast] at hpc
        obtain ⟨pre, hpre⟩ := List.getLast?_eq_some_iff.mp hlast
        have hdl : (components e.absolute e.segs).dropLast = pre := by
          rw [hpre]
          simp
        cases c with
        | rootDir => cases hpc
        | curDir =>
          simp only [Option.some.injEq] at hpc
          subst hpc
          by_cases hbp : ∃ x ∈ (components e.absolute e.segs).dropLast,
              x.isGood = false
          · exact modifyAt_bad _ root _ hdirs hbp
          · apply modifyAt_err _ root _ _ hdirs
            · intro x hx
              by_contra hxg
              exact hbp ⟨x, hx, by simpa using hxg⟩
            · intro t ht
              cases ht with
              | dir mt hmt =>
                dsimp only
                unfold fileNameOs
                rw [hlast]
        | parentDir =>
          simp only [Option.some.injEq] at hpc
          subst hpc
          by_cases hbp : ∃ x ∈ (components e.absolute e.segs).dropLast,
              x.isGood = false
          · exact modifyAt_bad _ root _ hdirs hbp
          · apply modifyAt_err _ root _ _ hdirs
            · intro x hx
              by_contra hxg
              exact hbp ⟨x, hx, by simpa using hxg⟩
            · intro t ht
              cases ht with
              | dir mt hmt =>
                dsimp only
                unfold fileNameOs
                rw [hlast]
        | normal s =>
          simp only [Option.some.injEq] at hpc
          subst hpc
          cases s with
          | some nm =>
            -- the last component is good, so a bad one sits in the prefix
            have hbp : ∃ x ∈ (components e.absolute e.segs).dropLast,
                x.isGood = false := by
              obtain ⟨x, hx, hxb⟩ := hbad'
              rw [hpre] at hx
              cases List.mem_append.mp hx with
              | inl hin =>
                rw [hdl]
                exact ⟨x, hin, hxb⟩
              | inr hone =>
                rw [List.mem_singleton] at hone
                subst hone
                simp [PComponent.isGood] at hxb
            exact modifyAt_bad _ root _ hdirs hbp
          | none =>
            by_cases hbp : ∃ x ∈ (components e.absolute e.segs).dropLast,
                x.isGood = false
            · exact modifyAt_bad _ root _ hdirs hbp
            · apply modifyAt_err _ root _ _ hdirs
              · intro x hx
                by_contra hxg
                exact hbp ⟨x, hx, by simpa using hxg⟩
              · intro t ht
                cases ht with
                | dir mt hmt =>
                  dsimp only
                  unfold fileNameOs
                  rw [hlast]

/-- C8 counterexample: a regular tar entry stored as `./foo` — whose only
non-`Normal` part is the leading `./` — is not accepted: the leading `./`
yields a `CurDir` component and `populate` fails with `InvalidInput`. -/
theorem populate_dot_slash_cex :
    populate (.directory []) [] ⟨0, .regular, false, [.dot, .name (some "foo")], []⟩
      = .error .invalidInput
    ∧ ∀ t, (Except.error PErr.invalidInput : Except PErr TarDirEntry) ≠ .ok t := by
  constructor
  · rfl
  · intro t h
    cases h

/-- C8 witness: a regular entry stored as `..` is rejected with
`InvalidInput`. -/
theorem populate_rejects_witness :
    populate (.directory []) [] ⟨0, .regular, false, [.dotdot], []⟩
      = .error .invalidInput :=
  populate_rejects_bad_components (.directory []) []
    ⟨0, .regular, false, [.dotdot], []⟩ dirsOnly_nil (Or.inl rfl) (by decide)

/-- C3 (as corrected): when `config.yaml` exists at the VFS root and its
contents fail to deserialize, `run` fails before wiring any stream or
touching the engine — but with `InstantiationFailed`
(`serde_yaml::from_slice(..).or(Err(Error::InstantiationFailed))`), not
`ConfigurationError`. -/
theorem config_parse_failure_error
    (rootMap : List (String × TarDirEntry))
    (parseCfg : List Nat → Option DeployConfig)
    (openRead openWrite : String → Bool) (buildOk : Bool)
    (cf : TarFileContents) (D : List Nat)
    (hentry : assocGet rootMap "config.yaml" = some (.file cf))
    (hread : readAll cf = .ok D)
    (hparse : parseCfg D = none) :
    runModel rootMap parseCfg openRead openWrite buildOk
      = .error .instantiationFailed := by
  unfold runModel loadConfig
  rw [hentry]
  dsimp only
  rw [hread]
  dsimp only
  rw [hparse]

/-- C3 counterexample: a concrete root whose `config.yaml` contents fail to
deserialize makes `run` return `InstantiationFailed`, which is not the
`ConfigurationError` the claim states. -/
theorem config_parse_failure_cex :
    runModel [("config.yaml", TarDirEntry.file
        ⟨[⟨0, .regular, false, [.name (some "config.yaml")], [58]⟩], 0⟩)]
      (fun _ => none) (fun _ => true) (fun _ => true) true
      = .error .instantiationFailed
    ∧ WError.instantiationFailed ≠ WError.configurationError := by
  constructor
  · rfl
  · decide

/-- C3 witness: the corrected theorem applied at a concrete root and
deserializer. -/
theorem config_parse_failure_witness :
    runModel [("config.yaml", TarDirEntry.file
        ⟨[⟨0, .regular, false, [.name (some "config.yaml")], [120]⟩], 0⟩)]
      (fun _ => none) (fun _ => false) (fun _ => false) false
      = .error .instantiationFailed :=
  config_parse_failure_error _ _ _ _ _
    ⟨[⟨0, .regular, false, [.name (some "config.yaml")], [120]⟩], 0⟩
    [120] rfl rfl rfl

/-- C4 (as corrected): when the VFS root has no `config.yaml` entry, `run`
performs no stdio configuration call at all: all three streams stay at the
WASI builder's own default (`unset` in this model), which is not the
explicit `Inherit` wiring an all-inherit config produces. -/
theorem no_config_leaves_stdio_unset
    (rootMap : List (String × TarDirEntry))
    (parseCfg : List Nat → Option DeployConfig)
    (openRead openWrite : String → Bool)
    (hentry : assocGet rootMap "config.yaml" = none) :
    runModel rootMap parseCfg openRead openWrite true
      = .ok (.unset, .unset, .unset) := by
  unfold runModel loadConfig
  rw [hentry]
  rfl

/-- C4 counterexample: with no `config.yaml`, the streams stay unset, while
an explicit all-inherit config yields three inherit calls; the two builder
configurations differ, so the no-config case is not "as if `inherit`
everywhere had been supplied". -/
theorem no_config_stdio_cex :
    runModel [] (fun _ => none) (fun _ => true) (fun _ => true) true
      = .ok (.unset, .unset, .unset)
    ∧ runModel [("config.yaml", TarDirEntry.file
        ⟨[⟨0, .regular, false, [.name (some "config.yaml")], [58]⟩], 0⟩)]
      (fun _ => some ⟨⟨some .inherit, some .inherit, some .inherit⟩⟩)
      (fun _ => true) (fun _ => true) true
      = .ok (.inherited, .inherited, .inherited)
    ∧ ((StreamCfg.unset, StreamCfg.unset, StreamCfg.unset)
        : StreamCfg × StreamCfg × StreamCfg)
      ≠ (.inherited, .inherited, .inherited) := by
  refine ⟨rfl, rfl, ?_⟩
  intro h
  cases h

/-- C4 witness: the corrected theorem applied at a root without
`config.yaml`. -/
theorem no_config_stdio_witness :
    runModel [("data", TarDirEntry.directory [])] (fun _ => none)
      (fun _ => false) (fun _ => false) true
      = .ok (.unset, .unset, .unset) :=
  no_config_leaves_stdio_unset _ _ _ _ rfl

/-- C5 (as corrected): when the WASI context build fails (as it does when
the args/envs exceed the engine's string-table limit), `run` surfaces it as
`InstantiationFailed` (`builder.build().or(Err(Error::InstantiationFailed))`);
the workload error type has no `StringTableError` variant — its variants are
exactly `ConfigurationError`, `ExportNotFound`, `InstantiationFailed`,
`CallFailed` and `IoError`. -/
theorem ctx_build_failure_error
    (rootMap : List (String × TarDirEntry))
    (parseCfg : List Nat → Option DeployConfig)
    (openRead openWrite : String → Bool)
    (t : StreamCfg × StreamCfg × StreamCfg)
    (h : runModel rootMap parseCfg openRead openWrite true = .ok t) :
    runModel rootMap parseCfg openRead openWrite false
      = .error .instantiationFailed
    ∧ ∀ e : WError, e = .configurationError ∨ e = .exportNotFound
        ∨ e = .instantiationFailed ∨ e = .callFailed ∨ e = .ioError := by
  constructor
  · unfold runModel at h ⊢
    revert h
    cases hl : loadConfig rootMap parseCfg with
    | error e =>
      dsimp only
      intro h
      simp at h
    | ok oc =>
      cases oc with
      | none =>
        dsimp only
        intro _
        rfl
      | some cfg =>
        dsimp only
        cases hs : setStdin (.directory rootMap) openRead cfg.stdio.stdin with
        | error e =>
          dsimp only
          intro h
          simp at h
        | ok a =>
          dsimp only
          cases hw1 : setWrite openWrite cfg.stdio.stdout with
          | error e =>
            dsimp only
            intro h
            simp at h
          | ok b =>
            dsimp only
            cases hw2 : setWrite openWrite cfg.stdio.stderr with
            | error e =>
              dsimp only
              intro h
              simp at h
            | ok c =>
              intro _
              rfl
  · intro e
    cases e <;> simp

/-- C5 counterexample: a failing context build produces
`InstantiationFailed`, one of the five actual variants; there is no distinct
`StringTableError` variant for it to be. -/
theorem string_table_error_cex :
    runModel [] (fun _ => none) (fun _ => true) (fun _ => true) false
      = .error .instantiationFailed
    ∧ ∀ e : WError, e = .configurationError ∨ e = .exportNotFound
        ∨ e = .instantiationFailed ∨ e = .callFailed ∨ e = .ioError := by
  constructor
  · rfl
  · intro e
    cases e <;> simp

/-- C5 witness: the corrected theorem applied at a concrete run that passes
the stdio phase. -/
theorem ctx_build_failure_witness :
    runModel [("data", TarDirEntry.directory [])] (fun _ => none)
      (fun _ => true) (fun _ => true) false
      = .error .instantiationFailed
    ∧ ∀ e : WError, e = .configurationError ∨ e = .exportNotFound
        ∨ e = .instantiationFailed ∨ e = .callFailed ∨ e = .ioError :=
  ctx_build_failure_error _ _ _ _ (.unset, .unset, .unset) rfl

/-- Write-stream configs that cannot fail: everything except `File` (whose
host `open` may error). -/
def writeNoFile : Option Handle → Bool
  | some (.file _) => false
  | _ => true

/-- `setWrite` always succeeds on a non-`File` config. -/
theorem setWrite_noFile (openWrite : String → Bool) (oh : Option Handle)
    (h : writeNoFile oh = true) : ∃ s, setWrite openWrite oh = .ok s := by
  cases oh with
  | none => exact ⟨.unset, rfl⟩
  | some hh =>
    cases hh with
    | null => exact ⟨.unset, rfl⟩
    | inherit => exact ⟨.inherited, rfl⟩
    | file p => simp [writeNoFile] at h
    | bundle p => exact ⟨.unset, rfl⟩

/-- C6: with stdin configured as `Bundle(p)`, a VFS lookup of `p` that finds
nothing or finds a directory makes `run` return `ConfigurationError` (before
the context is built or any guest code runs); a lookup that finds a file
wires that in-memory file as the guest's stdin stream. -/
theorem stdin_bundle_resolution
    (rootMap : List (String × TarDirEntry))
    (parseCfg : List Nat → Option DeployConfig)
    (openRead openWrite : String → Bool)
    (cf : TarFileContents) (D : List Nat) (cfg : DeployConfig) (p : RPath)
    (hentry : assocGet rootMap "config.yaml" = some (.file cf))
    (hread : readAll cf = .ok D)
    (hparse : parseCfg D = some cfg)
    (hin : cfg.stdio.stdin = some (.bundle p))
    (hout : writeNoFile cfg.stdio.stdout = true)
    (herr : writeNoFile cfg.stdio.stderr = true) :
    (TarDirEntry.lookup (.directory rootMap) p = none →
      runModel rootMap parseCfg openRead openWrite true
        = .error .configurationError)
    ∧ (∀ m, TarDirEntry.lookup (.directory rootMap) p = some (.directory m) →
      runModel rootMap parseCfg openRead openWrite true
        = .error .configurationError)
    ∧ (∀ g, TarDirEntry.lookup (.directory rootMap) p = some (.file g) →
      ∃ b c, runModel rootMap parseCfg openRead openWrite true
        = .ok (.virtFile g, b, c)) := by
  have hload : loadConfig rootMap parseCfg = .ok (some cfg) := by
    unfold loadConfig
    rw [hentry]
    dsimp only
    rw [hread]
    dsimp only
    rw [hparse]
  refine ⟨?_, ?_, ?_⟩
  · intro hlk
    have hstdin : setStdin (.directory rootMap) openRead cfg.stdio.stdin
        = .error .configurationError := by
      rw [hin]
      simp only [setStdin, hlk]
    unfold runModel
    rw [hload]
    dsimp only
    rw [hstdin]
  · intro m hlk
    have hstdin : setStdin (.directory rootMap) openRead cfg.stdio.stdin
        = .error .configurationError := by
      rw [hin]
      simp only [setStdin, hlk]
    unfold runModel
    rw [hload]
    dsimp only
    rw [hstdin]
  · intro g hlk
    obtain ⟨b, hb⟩ := setWrite_noFile openWrite cfg.stdio.stdout hout
    obtain ⟨c, hc⟩ := setWrite_noFile openWrite cfg.stdio.stderr herr
    refine ⟨b, c, ?_⟩
    have hstdin : setStdin (.directory rootMap) openRead cfg.stdio.stdin
        = .ok (.virtFile g) := by
      rw [hin]
      simp only [setStdin, hlk]
    unfold runModel
    rw [hload]
    dsimp only
    rw [hstdin]
    dsimp only
    rw [hb]
    dsimp only
    rw [hc]
    rfl

/-- The archive backing the C6 witness: a `config.yaml` entry and a
`stdin.txt` entry. -/
def c6Arch : List TarEnt :=
  [⟨0, .regular, false, [.name (some "config.yaml")], [58]⟩,
    ⟨512, .regular, false, [.name (some "stdin.txt")], [1, 2]⟩]

/-- The C6 witness's `config.yaml` file handle. -/
def c6Cf : TarFileContents := ⟨c6Arch, 0⟩

/-- The C6 witness's `stdin.txt` file handle. -/
def c6Stdin : TarFileContents := ⟨c6Arch, 512⟩

/-- The C6 witness's populated VFS root. -/
def c6Root : List (String × TarDirEntry) :=
  [("config.yaml", .file c6Cf), ("stdin.txt", .file c6Stdin)]

/-- The C6 witness's bundle path `stdin.txt`. -/
def c6Path : RPath := ⟨false, [.name (some "stdin.txt")]⟩

/-- The C6 witness's deployment config: stdin from the bundle, stdout and
stderr absent. -/
def c6Cfg : DeployConfig := ⟨⟨some (.bundle c6Path), none, none⟩⟩

/-- C6 witness: the theorem applied at a concrete bundle whose `stdin.txt`
resolves to a file. -/
theorem stdin_bundle_resolution_witness :
    (TarDirEntry.lookup (.directory c6Root) c6Path = none →
      runModel c6Root (fun _ => some c6Cfg) (fun _ => true) (fun _ => true) true
        = .error .configurationError)
    ∧ (∀ m, TarDirEntry.lookup (.directory c6Root) c6Path = some (.directory m) →
      runModel c6Root (fun _ => some c6Cfg) (fun _ => true) (fun _ => true) true
        = .error .configurationError)
    ∧ (∀ g, TarDirEntry.lookup (.directory c6Root) c6Path = some (.file g) →
      ∃ b c, runModel c6Root (fun _ => some c6Cfg) (fun _ => true) (fun _ => true) true
        = .ok (.virtFile g, b, c)) :=
  stdin_bundle_resolution c6Root (fun _ => some c6Cfg) (fun _ => true)
    (fun _ => true) c6Cf [58] c6Cfg c6Path rfl rfl rfl rfl rfl rfl

/-- C9 (as corrected): decoding the attestation syscall outcome.  A negative
`rax` is an OS error whose errno is the 32-bit truncation of `-rax`
(`-rax as i32`) — equal to `-rax` itself whenever `-2^31 < rax`; a
nonnegative `rax` yields `None` for discriminator 0 (whatever `rax`),
`Sev(rax)` for 1, `Sgx(rax)` for 2, and `ErrorKind::Other` otherwise. -/
theorem attest_result_decoding (rax : Int) (rdx : Nat) :
    (rax < 0 →
      attestDecode rax rdx = .error (.osError (toInt32 (-rax)))
      ∧ (-(2 ^ 31) < rax → toInt32 (-rax) = -rax))
    ∧ (0 ≤ rax →
      (rdx = 0 → attestDecode rax rdx = .ok .noReport)
      ∧ (rdx = 1 → attestDecode rax rdx = .ok (.sev rax.toNat))
      ∧ (rdx = 2 → attestDecode rax rdx = .ok (.sgx rax.toNat))
      ∧ (rdx ≠ 0 → rdx ≠ 1 → rdx ≠ 2 →
        attestDecode rax rdx = .error .otherError)) := by
  constructor
  · intro hneg
    constructor
    · unfold attestDecode
      rw [if_pos hneg]
    · intro hlo
      unfold toInt32
      have h1 : (0 : Int) ≤ -rax + 2 ^ 31 := by omega
      have h2 : -rax + 2 ^ 31 < 2 ^ 32 := by omega
      rw [Int.emod_eq_of_lt h1 h2]
      omega
  · intro hpos
    have hneg : ¬ rax < 0 := by omega
    refine ⟨?_, ?_, ?_, ?_⟩
    · intro h0
      subst h0
      unfold attestDecode
      rw [if_neg hneg]
      rfl
    · intro h1
      subst h1
      unfold attestDecode
      rw [if_neg hneg]
      rfl
    · intro h2
      subst h2
      unfold attestDecode
      rw [if_neg hneg]
      rfl
    · intro h0 h1 h2
      unfold attestDecode
      rw [if_neg hneg, if_neg h0, if_neg h1, if_neg h2]

/-- C9 counterexample: at `rax = -2^31` the code's errno is the 32-bit wrap
`-2^31`, not `-rax = 2^31` as the claim states. -/
theorem attest_errno_truncation_cex :
    attestDecode (-(2 ^ 31)) 0 = .error (.osError (-(2 ^ 31)))
    ∧ ((-(2 ^ 31) : Int)) ≠ 2 ^ 31 := by
  constructor
  · have h1 : toInt32 (2 ^ 31) = -(2 ^ 31) := by decide
    have h2 : (-(-(2 ^ 31) : Int)) = 2 ^ 31 := by norm_num
    unfold attestDecode
    rw [if_pos (by norm_num : (-(2 ^ 31) : Int) < 0), h2, h1]
  · decide

/-- C9 witness: the corrected theorem applied at `rax = -5`, `rdx = 0`. -/
theorem attest_result_witness :
    ((-5 : Int) < 0 →
      attestDecode (-5) 0 = .error (.osError (toInt32 (-(-5 : Int))))
      ∧ (-(2 ^ 31) < (-5 : Int) → toInt32 (-(-5 : Int)) = -(-5 : Int)))
    ∧ ((0 : Int) ≤ -5 →
      ((0 : Nat) = 0 → attestDecode (-5) 0 = .ok .noReport)
      ∧ ((0 : Nat) = 1 → attestDecode (-5) 0 = .ok (.sev (-5 : Int).toNat))
      ∧ ((0 : Nat) = 2 → attestDecode (-5) 0 = .ok (.sgx (-5 : Int).toNat))
      ∧ ((0 : Nat) ≠ 0 → (0 : Nat) ≠ 1 → (0 : Nat) ≠ 2 →
        attestDecode (-5) 0 = .error .otherError)) :=
  attest_result_decoding (-5) 0
